import Mathlib

/-!
Verification of the Page-Monitor Chrome extension (Page-Monitor-Chrome2N8N).

This file shallowly embeds the parts of the extension's JavaScript source
that carry the specified behaviour, and proves (or refutes) the spec's
claims about them:

* `src/background/activity-log.js` — the `ActivityLog` circular buffer and
  the `ActivityLogManager` failure counters and URL masking;
* `src/background/page-monitor.js` and the newer background service worker —
  change detection (`hasContentChanged`), extraction processing
  (`processContentExtraction`), webhook URL resolution
  (`sendContentToWebhook`), the extraction retry loop in `refreshPage`,
  `startMonitoring` / `stopMonitoring` validation and idempotence;
* `src/content-scripts/page-monitor-content.js` — the content liveness
  validation inside `extractBlockContent`.

JavaScript `Map`s are modelled as association lists (`delete` = filter on
the key), storage objects as `Option`-valued records, JavaScript's falsy
check on strings (`!s`) as emptiness, and the WHATWG `URL` constructor by a
parser for the absolute http/https URL subset the extension manipulates.
-/

deriving instance DecidableEq for Except

namespace PageMonitor

/-! ## Shared small helpers -/

/-- JavaScript truthiness of an optional string: `!s` is true when the value
is `undefined`/`null` or the empty string. -/
def jsFalsy : Option String → Bool
  | none => true
  | some s => s = ""

/-- JavaScript `s.trim()` (whitespace removed at both ends). -/
def trimChars (l : List Char) : List Char :=
  ((l.dropWhile Char.isWhitespace).reverse.dropWhile Char.isWhitespace).reverse

/-- JavaScript `!s || !s.trim()`: blank when absent or whitespace-only. -/
def jsBlank : Option String → Bool
  | none => true
  | some s => trimChars s.data = []

/-! ## `ActivityLog` — the circular buffer (`src/background/activity-log.js`)

The class fields `maxSize`, `entries`, `writeIndex`, `size` become structure
fields; the JavaScript array-index assignment `this.entries[this.writeIndex]
= entry` is an in-place `set` when the index is already populated and an
append when it equals the length (the only two cases the class reaches). -/

structure ActivityLog (α : Type) where
  maxSize : Nat
  entries : List α
  writeIndex : Nat
  size : Nat

/-- `new ActivityLog(maxSize)`: empty entries, write index 0, size 0. -/
def ActivityLog.empty (α : Type) (maxSize : Nat := 100) : ActivityLog α :=
  ⟨maxSize, [], 0, 0⟩

/-- JavaScript `arr[i] = a` for `i ≤ arr.length`: overwrite or append. -/
def jsArraySet (l : List α) (i : Nat) (a : α) : List α :=
  if i < l.length then l.set i a else l ++ [a]

/-- `ActivityLog.add(entry)`. -/
def ActivityLog.add (b : ActivityLog α) (e : α) : ActivityLog α :=
  { b with
    entries := jsArraySet b.entries b.writeIndex e
    writeIndex := (b.writeIndex + 1) % b.maxSize
    size := if b.size < b.maxSize then b.size + 1 else b.size }

/-- `ActivityLog.getAll()`: chronological order, oldest first. -/
def ActivityLog.getAll (b : ActivityLog α) : List α :=
  if b.size < b.maxSize then
    b.entries.take b.size
  else
    b.entries.drop b.writeIndex ++ b.entries.take b.writeIndex

/-- `ActivityLog.getRecent(count)`: the last `count` entries, oldest first. -/
def ActivityLog.getRecent (b : ActivityLog α) (count : Nat) : List α :=
  let all := b.getAll
  all.drop (all.length - count)

/-- Feed a sequence of entries into the buffer, in order. -/
def ActivityLog.addAll (b : ActivityLog α) (es : List α) : ActivityLog α :=
  es.foldl ActivityLog.add b

/-- Representation invariant tying a buffer state to the full history `H` of
entries appended so far: below capacity the entries array is exactly the
history; at capacity the array is a rotation `B ++ A` of the last
`maxSize` entries `A ++ B`, with the write index at the seam. -/
def RingRep (k : Nat) (H : List α) (s : ActivityLog α) : Prop :=
  s.maxSize = k ∧
  ((H.length < k ∧ s.entries = H ∧ s.writeIndex = H.length ∧ s.size = H.length) ∨
   (k ≤ H.length ∧ s.size = k ∧
    ∃ A B : List α, s.entries = B ++ A ∧ s.writeIndex = B.length ∧
      B.length < k ∧ A.length + B.length = k ∧
      A ++ B = H.drop (H.length - k)))

theorem ringRep_empty (α : Type) (k : Nat) (hk : 0 < k) :
    RingRep k ([] : List α) (ActivityLog.empty α k) := by
  refine ⟨rfl, Or.inl ?_⟩
  simp [ActivityLog.empty, hk]

theorem ringRep_add {k : Nat} {H : List α} {s : ActivityLog α} (hk : 0 < k)
    (h : RingRep k H s) (e : α) : RingRep k (H ++ [e]) (s.add e) := by
  obtain ⟨hmax, hcase⟩ := h
  refine ⟨by simp [ActivityLog.add, hmax], ?_⟩
  rcases hcase with ⟨hlt, hent, hw, hsz⟩ | ⟨hge, hsz, A, B, hent, hw, hBlt, hABlen, hAB⟩
  · -- below capacity: the write lands at the end of the array
    by_cases hfull : H.length + 1 < k
    · refine Or.inl ⟨by simpa using hfull, ?_, ?_, ?_⟩
      · simp [ActivityLog.add, hent, hw, jsArraySet]
      · simp [ActivityLog.add, hw, hmax, Nat.mod_eq_of_lt hfull]
      · simp [ActivityLog.add, hsz, hmax, hlt]
    · -- the buffer becomes exactly full: H.length + 1 = k
      have hk1 : H.length + 1 = k := by omega
      refine Or.inr ⟨by simp; omega, ?_, H ++ [e], [], ?_, ?_, hk, ?_, ?_⟩
      · show (if s.size < s.maxSize then s.size + 1 else s.size) = k
        rw [hsz, hmax, if_pos hlt]; omega
      · simp [ActivityLog.add, hent, hw, jsArraySet]
      · simp [ActivityLog.add, hw, hmax, hk1]
      · simp; omega
      · simp [hk1]
  · -- at capacity: the write overwrites the head of `A`
    have hApos : 0 < A.length := by omega
    obtain ⟨a, A', rfl⟩ : ∃ a A', A = a :: A' := by
      cases A with
      | nil => simp at hApos
      | cons a A' => exact ⟨a, A', rfl⟩
    simp only [List.length_cons] at hABlen
    have hlen : s.entries.length = k := by
      rw [hent]; simp; omega
    have hset : jsArraySet s.entries s.writeIndex e = B ++ e :: A' := by
      unfold jsArraySet
      rw [if_pos (by omega)]
      rw [hent, hw]
      rw [List.set_append_right _ _ (Nat.le_refl _)]
      simp
    have hszk : (if s.size < s.maxSize then s.size + 1 else s.size) = k := by
      rw [hsz, hmax, if_neg (by omega)]
    by_cases hwrap : B.length + 1 < k
    · -- no wrap-around: the seam moves one step right
      refine Or.inr ⟨by simp; omega, hszk, A', B ++ [e], ?_, ?_, by simpa using hwrap, by simp; omega, ?_⟩
      · simp [ActivityLog.add, hset]
      · simp [ActivityLog.add, hw, hmax, Nat.mod_eq_of_lt hwrap]
      · have hdrop : (H ++ [e]).length - k = (H.length - k) + 1 := by simp; omega
        rw [hdrop]
        have : (H ++ [e]).drop ((H.length - k) + 1) = H.drop ((H.length - k) + 1) ++ [e] := by
          rw [List.drop_append_of_le_length (by omega)]
        rw [this, ← List.drop_drop, ← hAB]
        have hA1 : ((a :: A') ++ B).drop 1 = A' ++ B := by simp
        rw [hA1]; simp
    · -- wrap-around: `A` is a singleton, the write index returns to 0
      have hBk : B.length + 1 = k := by omega
      have hA' : A' = [] := by
        have : A'.length = 0 := by omega
        simpa using this
      subst hA'
      refine Or.inr ⟨by simp; omega, hszk, B ++ [e], [], ?_, ?_, hk, by simp; omega, ?_⟩
      · simp [ActivityLog.add, hset]
      · simp [ActivityLog.add, hw, hmax, hBk]
      · have hdrop : (H ++ [e]).length - k = (H.length - k) + 1 := by simp; omega
        rw [hdrop]
        have : (H ++ [e]).drop ((H.length - k) + 1) = H.drop ((H.length - k) + 1) ++ [e] := by
          rw [List.drop_append_of_le_length (by omega)]
        rw [this, ← List.drop_drop, ← hAB]
        simp

theorem ringRep_addAll {k : Nat} (hk : 0 < k) (H : List α) :
    RingRep k H ((ActivityLog.empty α k).addAll H) := by
  induction H using List.reverseRecOn with
  | nil => exact ringRep_empty α k hk
  | append_singleton H e ih =>
      have : (ActivityLog.empty α k).addAll (H ++ [e]) =
          ((ActivityLog.empty α k).addAll H).add e := by
        unfold ActivityLog.addAll
        rw [List.foldl_append]
        rfl
      rw [this]
      exact ringRep_add hk ih e

theorem getAll_of_ringRep {k : Nat} {H : List α} {s : ActivityLog α}
    (h : RingRep k H s) : s.getAll = H.drop (H.length - k) := by
  obtain ⟨hmax, hcase⟩ := h
  rcases hcase with ⟨hlt, hent, hw, hsz⟩ | ⟨hge, hsz, A, B, hent, hw, hBlt, hABlen, hAB⟩
  · unfold ActivityLog.getAll
    rw [if_pos (by rw [hsz, hmax]; omega)]
    rw [hent, hsz]
    have h0 : H.length - k = 0 := by omega
    rw [h0, List.drop_zero, List.take_length]
  · unfold ActivityLog.getAll
    rw [if_neg (by rw [hsz, hmax]; omega)]
    rw [hent, hw, ← hAB]
    have hdrop : (B ++ A).drop B.length = A := List.drop_left B A
    have htake : (B ++ A).take B.length = B := List.take_left B A
    rw [hdrop, htake]

/-- **C2.** The activity-log ring buffer never holds more than its configured
capacity of entries, and after appending any sequence `H` of entries to a
fresh buffer of positive capacity `k`, `getAll` returns exactly the last
`min |H| k` appended entries in insertion order (all of `H` when `|H| ≤ k`,
the final `k` entries otherwise). -/
theorem activityLog_ring_bounded_fifo (α : Type) (k : Nat) (hk : 0 < k)
    (H : List α) :
    ((ActivityLog.empty α k).addAll H).getAll = H.drop (H.length - k) ∧
    ((ActivityLog.empty α k).addAll H).getAll.length = min H.length k ∧
    ((ActivityLog.empty α k).addAll H).getAll.length ≤ k := by
  have hrep := ringRep_addAll (α := α) hk H
  have hget := getAll_of_ringRep hrep
  refine ⟨hget, ?_, ?_⟩
  · rw [hget]; simp; omega
  · rw [hget]; simp; omega

/-- **C2 witness.** A capacity-100 buffer fed the entries `1..101` returns
exactly the entries `2..101`, in order. -/
theorem activityLog_ring_bounded_fifo_witness :
    ((ActivityLog.empty Nat 100).addAll ((List.range 101).map (· + 1))).getAll
      = (List.range 100).map (· + 2) := by
  have h := (activityLog_ring_bounded_fifo Nat 100 (by decide)
    ((List.range 101).map (· + 1))).1
  rw [h]
  decide

/-! ## `ActivityLogManager` failure counters (`src/background/activity-log.js`)

`failureCounters` is a JavaScript `Map` keyed by tab id; we model it as an
association list, with `Map.get`/`set`/`delete` as lookup, overwrite-or-
insert and key removal. -/

/-- `this.failureCounters.get(tabId)` -/
def mapGet (m : List (Nat × Nat)) (k : Nat) : Option Nat :=
  (m.find? (fun p => p.1 == k)).map (·.2)

/-- `this.failureCounters.set(tabId, v)` -/
def mapSet (m : List (Nat × Nat)) (k v : Nat) : List (Nat × Nat) :=
  match m with
  | [] => [(k, v)]
  | (k', v') :: rest => if k' == k then (k, v) :: rest else (k', v') :: mapSet rest k v

/-- `this.failureCounters.delete(tabId)` -/
def mapDelete (m : List (Nat × Nat)) (k : Nat) : List (Nat × Nat) :=
  m.filter (fun p => p.1 != k)

/-- `ActivityLogManager.FAILURE_THRESHOLD` — auto-stop after 5 consecutive
failures. -/
def FAILURE_THRESHOLD : Nat := 5

/-- `ActivityLogManager.getFailureCount(tabId)`:
`this.failureCounters.get(tabId) || 0`. -/
def getFailureCount (m : List (Nat × Nat)) (tabId : Nat) : Nat :=
  (mapGet m tabId).getD 0

/-- `ActivityLogManager.recordFailure(tabId)`: increments the counter and
returns the new count. -/
def recordFailure (m : List (Nat × Nat)) (tabId : Nat) :
    Nat × List (Nat × Nat) :=
  let count := (mapGet m tabId).getD 0 + 1
  (count, mapSet m tabId count)

/-- `ActivityLogManager.recordSuccess(tabId)`: deletes the counter entry
(the `has` pre-check in the source does not change the resulting map). -/
def recordSuccess (m : List (Nat × Nat)) (tabId : Nat) : List (Nat × Nat) :=
  mapDelete m tabId

/-- `ActivityLogManager.isFailureThresholdReached(tabId)`. -/
def isFailureThresholdReached (m : List (Nat × Nat)) (tabId : Nat) : Bool :=
  FAILURE_THRESHOLD ≤ getFailureCount m tabId

/-- `recordFailure` applied `n` times in a row to the same tab. -/
def recordFailures (m : List (Nat × Nat)) (tabId n : Nat) : List (Nat × Nat) :=
  match n with
  | 0 => m
  | n + 1 => (recordFailure (recordFailures m tabId n) tabId).2

theorem mapGet_mapSet (m : List (Nat × Nat)) (k v : Nat) :
    mapGet (mapSet m k v) k = some v := by
  induction m with
  | nil => simp [mapGet, mapSet, List.find?]
  | cons p rest ih =>
      obtain ⟨k', v'⟩ := p
      by_cases h : k' = k
      · subst h
        simp [mapGet, mapSet, List.find?]
      · have hb : (k' == k) = false := by simpa using h
        simp only [mapSet, hb, Bool.false_eq_true, if_false]
        simpa [mapGet, List.find?, hb] using ih

theorem mapGet_mapDelete (m : List (Nat × Nat)) (k : Nat) :
    mapGet (mapDelete m k) k = none := by
  induction m with
  | nil => simp [mapGet, mapDelete]
  | cons p rest ih =>
      obtain ⟨k', v'⟩ := p
      by_cases h : k' = k
      · subst h
        simpa [mapGet, mapDelete] using ih
      · have hb : (k' != k) = true := by simpa using h
        have hb' : (k' == k) = false := by simpa using h
        simp only [mapDelete, List.filter, hb] at ih ⊢
        simpa [mapGet, List.find?, hb'] using ih

theorem getFailureCount_recordFailures (m : List (Nat × Nat)) (t n : Nat) :
    getFailureCount (recordFailures (recordSuccess m t) t n) t = n := by
  induction n with
  | zero => simp [recordFailures, recordSuccess, getFailureCount, mapGet_mapDelete]
  | succ n ih =>
      simp only [recordFailures, recordFailure]
      simp only [getFailureCount] at ih ⊢
      rw [mapGet_mapSet]
      simp [ih]

/-- **C5.** `recordFailure` returns the previous count plus one (and stores
it), `recordSuccess` resets the count to zero, and the auto-stop threshold
test holds exactly when the consecutive-failure count is at least 5: after
5 consecutive failures (from a freshly reset counter) it holds, after 4 it
does not. -/
theorem failureTracker_threshold (m : List (Nat × Nat)) (t : Nat) :
    (recordFailure m t).1 = getFailureCount m t + 1 ∧
    getFailureCount (recordFailure m t).2 t = getFailureCount m t + 1 ∧
    getFailureCount (recordSuccess m t) t = 0 ∧
    (∀ n, isFailureThresholdReached (recordFailures (recordSuccess m t) t n) t
        = decide (5 ≤ n)) ∧
    isFailureThresholdReached (recordFailures (recordSuccess m t) t 5) t = true ∧
    isFailureThresholdReached (recordFailures (recordSuccess m t) t 4) t = false := by
  have hcount := getFailureCount_recordFailures m t
  have hthresh : ∀ n, isFailureThresholdReached (recordFailures (recordSuccess m t) t n) t
      = decide (5 ≤ n) := by
    intro n
    simp [isFailureThresholdReached, hcount n, FAILURE_THRESHOLD]
  refine ⟨rfl, ?_, ?_, hthresh, ?_, ?_⟩
  · simp [recordFailure, getFailureCount, mapGet_mapSet]
  · simp [recordSuccess, getFailureCount, mapGet_mapDelete]
  · rw [hthresh 5]; decide
  · rw [hthresh 4]; decide

/-! ## Change detection (`src/background/page-monitor.js`)

`hasContentChanged` and `processContentExtraction` read and write the
per-tab monitoring configuration stored under `monitoringConfig`. We model
the stored record for one tab (`Option MonConfig`, `none` when absent), the
SHA-256 digest as an abstract hash function parameter, and
`saveMonitoringConfig`'s `lastCheckTime: new Date().toISOString()` with an
explicit `now` parameter. A webhook dispatch is recorded as a value rather
than performed. -/

structure MonConfig where
  changeDetection : Bool
  lastContentHash : Option String
  lastCheckTime : Nat
  deriving DecidableEq, Repr

/-- One `sendContentToWebhook` invocation, as recorded data. -/
structure Dispatch where
  content : String
  url : String
  selector : String
  changeDetected : Bool
  deriving DecidableEq, Repr

/-- The payload a content script delivers with `contentExtracted`. -/
structure ExtractData where
  content : Option String
  url : String
  selector : String

/-- `saveMonitoringConfig(tabId, config)` refreshes `lastCheckTime`. -/
def saveMonitoringConfig (now : Nat) (c : MonConfig) : MonConfig :=
  { c with lastCheckTime := now }

/-- `hasContentChanged(tabId, currentContent)`: returns the change verdict
and the (possibly updated) stored configuration. `hash` stands for
`generateContentHash` (SHA-256 over UTF-8, hex). -/
def hasContentChanged (hash : String → String) (now : Nat)
    (cfg : Option MonConfig) (currentContent : String) :
    Bool × Option MonConfig :=
  match cfg with
  | none => (true, none)
  | some c =>
    if !c.changeDetection then (true, some c)
    else
      let currentHash := hash currentContent
      if jsFalsy c.lastContentHash then
        -- first run: save hash but do not send
        (false, some (saveMonitoringConfig now
          { c with lastContentHash := some currentHash }))
      else if some currentHash = c.lastContentHash then
        (false, some c)
      else
        (true, some (saveMonitoringConfig now
          { c with lastContentHash := some currentHash }))

/-- `processContentExtraction(tabId, data)`: returns the list of webhook
dispatches performed (empty or a singleton) and the resulting stored
configuration. -/
def processContentExtraction (hash : String → String) (now : Nat)
    (cfg : Option MonConfig) (d : ExtractData) :
    List Dispatch × Option MonConfig :=
  match cfg with
  | none => ([], none)
  | some c =>
    if jsFalsy d.content then ([], some c)
    else
      let content := d.content.getD ""
      let r := hasContentChanged hash now (some c) content
      if r.1 then ([⟨content, d.url, d.selector, r.1⟩], r.2)
      else ([], r.2)

/-- **C1.** For a monitored tab with a configuration present and nonempty
extracted content: with change detection enabled, the cycle dispatches iff a
hash was already stored and the new hash differs from it — on the first
successful cycle the hash is recorded without dispatching, on an equal hash
nothing is dispatched or changed, on a differing hash the stored hash is
updated and exactly one dispatch occurs; with change detection disabled,
every such cycle dispatches exactly once. -/
theorem changeDetection_dispatch_iff (hash : String → String) (now : Nat)
    (c : MonConfig) (content url sel : String) (hc : content ≠ "") :
    (((processContentExtraction hash now (some c) ⟨some content, url, sel⟩).1.length = 1)
      ↔ (c.changeDetection = false ∨
          ∃ p, c.lastContentHash = some p ∧ p ≠ "" ∧ hash content ≠ p)) ∧
    (c.changeDetection = true → jsFalsy c.lastContentHash = true →
      processContentExtraction hash now (some c) ⟨some content, url, sel⟩
        = ([], some { c with lastContentHash := some (hash content),
                             lastCheckTime := now })) ∧
    (∀ p, c.changeDetection = true → c.lastContentHash = some p → p ≠ "" →
      hash content = p →
      processContentExtraction hash now (some c) ⟨some content, url, sel⟩
        = ([], some c)) ∧
    (∀ p, c.changeDetection = true → c.lastContentHash = some p → p ≠ "" →
      hash content ≠ p →
      processContentExtraction hash now (some c) ⟨some content, url, sel⟩
        = ([⟨content, url, sel, true⟩],
           some { c with lastContentHash := some (hash content),
                         lastCheckTime := now })) ∧
    (c.changeDetection = false →
      processContentExtraction hash now (some c) ⟨some content, url, sel⟩
        = ([⟨content, url, sel, true⟩], some c)) := by
  have hfalsy : jsFalsy (some content) = false := by simp [jsFalsy, hc]
  refine ⟨?_, ?_, ?_, ?_, ?_⟩
  · -- the dispatch-iff characterisation
    unfold processContentExtraction hasContentChanged
    simp only [hfalsy, Bool.false_eq_true, if_false, Option.getD_some]
    cases hcd : c.changeDetection with
    | false => simp [saveMonitoringConfig]
    | true =>
        simp only [Bool.not_true, Bool.false_eq_true, if_false]
        cases hprev : c.lastContentHash with
        | none => simp [jsFalsy, hprev]
        | some p =>
            by_cases hp : p = ""
            · subst hp
              simp [jsFalsy, hprev]
            · have : jsFalsy (some p) = false := by simp [jsFalsy, hp]
              simp only [hprev, this, Bool.false_eq_true, if_false]
              by_cases heq : hash content = p
              · simp [heq, hp]
              · have : ¬ (some (hash content) = some p) := by simpa using heq
                simp [this, heq, hp]
  · intro hcd hfirst
    unfold processContentExtraction hasContentChanged
    simp [hfalsy, hcd, hfirst, saveMonitoringConfig]
  · intro p hcd hprev hp heq
    unfold processContentExtraction hasContentChanged
    have h1 : jsFalsy (some p) = false := by simp [jsFalsy, hp]
    simp [hfalsy, hcd, h1, hprev, heq]
  · intro p hcd hprev hp hne
    unfold processContentExtraction hasContentChanged
    have h1 : jsFalsy c.lastContentHash = false := by simp [jsFalsy, hprev, hp]
    have h2 : ¬ (some (hash content) = c.lastContentHash) := by
      simpa [hprev] using hne
    simp [hfalsy, hcd, h1, h2, saveMonitoringConfig]
  · intro hcd
    unfold processContentExtraction hasContentChanged
    simp [hfalsy, hcd]

/-- **C1 witness.** Concrete run on the first and second cycle of a
change-detection-enabled configuration. -/
theorem changeDetection_dispatch_iff_witness :
    processContentExtraction (fun s => s ++ "#") 7
        (some ⟨true, none, 0⟩) ⟨some "abc", "u", "s"⟩
      = ([], some ⟨true, some "abc#", 7⟩) := by
  exact (changeDetection_dispatch_iff (fun s => s ++ "#") 7
    ⟨true, none, 0⟩ "abc" "u" "s" (by decide)).2.1 rfl (by decide)

/-- **C10.** For any stored configuration state, processing an extraction
whose `content` field is absent or empty performs no webhook dispatch and
leaves the stored configuration (in particular the saved hash) unchanged. -/
theorem emptyContent_no_dispatch_no_update (hash : String → String) (now : Nat)
    (cfg : Option MonConfig) (url sel : String) :
    processContentExtraction hash now cfg ⟨none, url, sel⟩ = ([], cfg) ∧
    processContentExtraction hash now cfg ⟨some "", url, sel⟩ = ([], cfg) := by
  cases cfg with
  | none => exact ⟨rfl, rfl⟩
  | some c =>
      constructor
      · unfold processContentExtraction
        simp [jsFalsy]
      · unfold processContentExtraction
        simp [jsFalsy]

/-! ## Liveness validation
(`src/content-scripts/page-monitor-content.js`, `extractBlockContent`)

The validation runs on the trimmed extracted content. JavaScript
`String.prototype.includes` becomes a plain substring test on the character
list; the regexes `/\bNaN\b/`, `/undefined items/`, `/of NaN pages/` are
modelled directly (the two literal ones as substring tests, the
word-boundary one by scanning with `\w = [A-Za-z0-9_]`). -/

/-- `hay.includes(needle)`: substring containment (true for the empty
needle, as in JavaScript). -/
def jsIncludes (hay needle : List Char) : Bool :=
  needle.isPrefixOf hay ||
    match hay with
    | [] => false
    | _ :: t => jsIncludes t needle

/-- JavaScript regex word character `\w`. -/
def isWordChar (c : Char) : Bool :=
  ('a' ≤ c && c ≤ 'z') || ('A' ≤ c && c ≤ 'Z') || ('0' ≤ c && c ≤ '9') || c = '_'

/-- Does `/\bNaN\b/` match at the head of `l`, given the character (if any)
immediately before `l`? -/
def bNaNbAt (prev : Option Char) (l : List Char) : Bool :=
  match l with
  | a :: b :: c :: rest =>
      a = 'N' && b = 'a' && c = 'N' &&
      (match prev with
       | none => true
       | some p => !isWordChar p) &&
      (match rest with
       | [] => true
       | d :: _ => !isWordChar d)
  | _ => false

/-- Does `/\bNaN\b/` match anywhere in `l` (with `prev` the character before
`l`, `none` at the start of the string)? -/
def bNaNbFrom (prev : Option Char) (l : List Char) : Bool :=
  bNaNbAt prev l ||
    match l with
    | [] => false
    | c :: t => bNaNbFrom (some c) t

/-- `/\bNaN\b/.test(s)` on the whole string. -/
def bNaNbTest (l : List Char) : Bool := bNaNbFrom none l

/-- The non-empty lines of the trimmed content:
`split('\n').map(trim).filter(nonempty)`. -/
def nonEmptyLines (l : List Char) : Nat :=
  (((l.splitOn '\n').map trimChars).filter (· ≠ [])).length

inductive CType where
  | html
  | text
  deriving DecidableEq, Repr

inductive VerdictC4 where
  | ok
  | tooShort
  | stillLoading
  | tooFewLines
  deriving DecidableEq, Repr

/-- The `loadingIndicators` check of `extractBlockContent`, in source
order: the string entries `'NaN'`, `'undefined'`, `'Loading...'`,
`'loading'` via `includes`, then the regexes `/\bNaN\b/`,
`/undefined items/`, `/of NaN pages/` via `test`. -/
def hasLoadingIndicator (trimmed : List Char) : Bool :=
  jsIncludes trimmed "NaN".data ||
  jsIncludes trimmed "undefined".data ||
  jsIncludes trimmed "Loading...".data ||
  jsIncludes trimmed "loading".data ||
  bNaNbTest trimmed ||
  jsIncludes trimmed "undefined items".data ||
  jsIncludes trimmed "of NaN pages".data

/-- The `validateContent` branch of `extractBlockContent`, applied to the
already-trimmed content: minimum length 100, loading indicators, and in
`text` mode at least 3 non-empty lines. -/
def validateExtracted (trimmed : List Char) (contentType : CType) : VerdictC4 :=
  if trimmed.length < 100 then .tooShort
  else if hasLoadingIndicator trimmed then .stillLoading
  else if contentType = .text ∧ nonEmptyLines trimmed < 3 then .tooFewLines
  else .ok

/-! Helper facts: the substring test agrees with `List.IsInfix`, and each
regex-based indicator implies one of the four plain substring indicators. -/

theorem jsIncludes_correct (hay needle : List Char) :
    jsIncludes hay needle = true ↔ needle <:+: hay := by
  induction hay with
  | nil =>
      unfold jsIncludes
      cases needle with
      | nil => simp
      | cons c t => simp [List.isPrefixOf]
  | cons c t ih =>
      unfold jsIncludes
      rw [Bool.or_eq_true, List.isPrefixOf_iff_prefix, ih]
      constructor
      · rintro (h | h)
        · exact h.isInfix
        · exact h.trans (List.suffix_cons c t).isInfix
      · intro h
        rcases List.infix_cons_iff.mp h with h | h
        · exact Or.inl h
        · exact Or.inr h

theorem jsIncludes_trans {hay n₁ n₂ : List Char}
    (h₁ : jsIncludes hay n₂ = true) (h₂ : n₁ <:+: n₂) :
    jsIncludes hay n₁ = true := by
  rw [jsIncludes_correct] at h₁ ⊢
  exact h₂.trans h₁

theorem bNaNbAt_prefix {prev : Option Char} {l : List Char}
    (h : bNaNbAt prev l = true) : "NaN".data <+: l := by
  unfold bNaNbAt at h
  match l with
  | [] => simp at h
  | [a] => simp at h
  | [a, b] => simp at h
  | a :: b :: c :: rest =>
      simp only [Bool.and_eq_true, decide_eq_true_eq] at h
      obtain ⟨⟨⟨⟨ha, hb⟩, hc⟩, -⟩, -⟩ := h
      subst ha; subst hb; subst hc
      exact ⟨rest, rfl⟩

theorem bNaNbFrom_includes {prev : Option Char} {l : List Char}
    (h : bNaNbFrom prev l = true) : jsIncludes l "NaN".data = true := by
  induction l generalizing prev with
  | nil =>
      unfold bNaNbFrom bNaNbAt at h
      simp at h
  | cons c t ih =>
      unfold bNaNbFrom at h
      rw [Bool.or_eq_true] at h
      rcases h with h | h
      · have := bNaNbAt_prefix h
        rw [jsIncludes_correct]
        exact this.isInfix
      · have := ih h
        unfold jsIncludes
        rw [Bool.or_eq_true]
        exact Or.inr this

/-- **C4 counterexample.** A 100-character HTML-mode content containing the
plain substring `undefined` — but none of the markers listed in the claim
(`Loading...`, standalone `loading`, `\bNaN\b`, `undefined items`,
`of NaN pages`) — is rejected by the code as still-loading, while the claim
says all such content is accepted. -/
theorem liveness_markers_counterexample :
    (validateExtracted ("undefined" ++ String.mk (List.replicate 91 'a')).data .html
        = .stillLoading) ∧
    ("undefined" ++ String.mk (List.replicate 91 'a')).data.length = 100 ∧
    jsIncludes ("undefined" ++ String.mk (List.replicate 91 'a')).data "Loading...".data = false ∧
    jsIncludes ("undefined" ++ String.mk (List.replicate 91 'a')).data "loading".data = false ∧
    bNaNbTest ("undefined" ++ String.mk (List.replicate 91 'a')).data = false ∧
    jsIncludes ("undefined" ++ String.mk (List.replicate 91 'a')).data "undefined items".data = false ∧
    jsIncludes ("undefined" ++ String.mk (List.replicate 91 'a')).data "of NaN pages".data = false := by
  refine ⟨?_, ?_, ?_, ?_, ?_, ?_, ?_⟩ <;> decide

/-- **C4 (amended).** The validation accepts the trimmed content iff it has
at least 100 characters, contains none of the four plain substrings
`NaN`, `undefined`, `Loading...`, `loading`, and (in text mode) has at
least 3 non-empty lines; the three regex indicators are subsumed by the
substring tests `NaN` and `undefined`. Shorter content is rejected as too
short (100 characters pass the length check, 99 fail). -/
theorem liveness_validation_characterisation (trimmed : List Char) (ct : CType) :
    (validateExtracted trimmed ct = .ok ↔
      (100 ≤ trimmed.length ∧
       jsIncludes trimmed "NaN".data = false ∧
       jsIncludes trimmed "undefined".data = false ∧
       jsIncludes trimmed "Loading...".data = false ∧
       jsIncludes trimmed "loading".data = false ∧
       (ct = .text → 3 ≤ nonEmptyLines trimmed))) ∧
    (trimmed.length < 100 → validateExtracted trimmed ct = .tooShort) := by
  constructor
  · constructor
    · intro h
      unfold validateExtracted at h
      by_cases hlen : trimmed.length < 100
      · simp [hlen] at h
      · rw [if_neg hlen] at h
        by_cases hind : hasLoadingIndicator trimmed = true
        · simp [hind] at h
        · rw [if_neg (by simp_all)] at h
          unfold hasLoadingIndicator at hind
          simp only [Bool.or_eq_true, not_or, Bool.not_eq_true] at hind
          obtain ⟨⟨⟨⟨⟨⟨h1, h2⟩, h3⟩, h4⟩, h5⟩, h6⟩, h7⟩ := hind
          refine ⟨by omega, h1, h2, h3, h4, ?_⟩
          intro hct
          by_cases hlines : nonEmptyLines trimmed < 3
          · simp [hct, hlines] at h
          · omega
    · rintro ⟨hlen, h1, h2, h3, h4, hlines⟩
      have hreg1 : bNaNbTest trimmed = false := by
        by_contra hb
        rw [Bool.not_eq_false] at hb
        have := bNaNbFrom_includes hb
        rw [h1] at this
        exact absurd this (by simp)
      have hreg2 : jsIncludes trimmed "undefined items".data = false := by
        by_contra hb
        rw [Bool.not_eq_false] at hb
        have := jsIncludes_trans hb
          (show "undefined".data <:+: "undefined items".data from
            ⟨[], " items".data, by decide⟩)
        rw [h2] at this
        exact absurd this (by simp)
      have hreg3 : jsIncludes trimmed "of NaN pages".data = false := by
        by_contra hb
        rw [Bool.not_eq_false] at hb
        have := jsIncludes_trans hb
          (show "NaN".data <:+: "of NaN pages".data from
            ⟨"of ".data, " pages".data, by decide⟩)
        rw [h1] at this
        exact absurd this (by simp)
      have hind : hasLoadingIndicator trimmed = false := by
        unfold hasLoadingIndicator
        rw [h1, h2, h3, h4, hreg1, hreg2, hreg3]
        rfl
      unfold validateExtracted
      rw [if_neg (by omega), hind, if_neg (by simp)]
      rw [if_neg ?_]
      rintro ⟨hct, hcnt⟩
      have := hlines hct
      omega
  · intro hlen
    unfold validateExtracted
    rw [if_pos hlen]

/-! ## Webhook URL resolution (`sendContentToWebhook`, newer background
service worker)

The function picks the override passed by the caller, else the tab
configuration's `webhookUrl`, else the global `webhookUrl` from storage; a
blank value (absent / not a string / whitespace-only) falls through, the
sentinel placeholder `YOUR_N8N_WEBHOOK_URL` aborts with an error at the
level that selected it, and whatever non-blank string survives is used
as-is — the code never checks that it is a well-formed URL. -/

/-- The placeholder value shipped in the default configuration. -/
def WEBHOOK_SENTINEL : String := "YOUR_N8N_WEBHOOK_URL"

inductive WebhookError where
  /-- the global fallback was blank or the sentinel:
  "No webhook URL set. Please configure it ..." -/
  | noWebhookConfigured
  /-- the tab configuration's webhook was the sentinel:
  "Invalid webhook URL configured ..." -/
  | invalidTabWebhook
  /-- the caller's override was the sentinel: "Invalid webhook URL ..." -/
  | invalidOverrideWebhook
  deriving DecidableEq, Repr

/-- The URL-selection prefix of `sendContentToWebhook(tabId, content, url,
selector, changeDetected, overrideWebhookUrl)`: which URL the POST would
use, or which error aborts the dispatch. -/
def resolveWebhookUrl (override cfgWebhook global : Option String) :
    Except WebhookError String :=
  if jsBlank override then
    if jsBlank cfgWebhook then
      if jsBlank global || global == some WEBHOOK_SENTINEL then
        .error .noWebhookConfigured
      else
        .ok (global.getD "")
    else
      if cfgWebhook == some WEBHOOK_SENTINEL then
        .error .invalidTabWebhook
      else
        .ok (cfgWebhook.getD "")
  else
    if override == some WEBHOOK_SENTINEL then
      .error .invalidOverrideWebhook
    else
      .ok (override.getD "")

/-- First non-blank candidate among override, tab webhook, global. -/
def firstNonBlank (l : List (Option String)) : Option String :=
  match l with
  | [] => none
  | x :: rest => if jsBlank x then firstNonBlank rest else x

/-! ### The WHATWG `URL` constructor

`sendContentToWebhook` itself never parses its URL, but the claims speak
about well-formed URLs, and `maskUrl` (below) calls the platform's
`new URL(...)`. We model the WHATWG parser for absolute URLs: a scheme (an
ASCII letter followed by letters, digits, `+`, `-`, `.`, then `:`); for the
special schemes `http`, `https`, `ws`, `wss`, `ftp` a required authority —
slashes after the colon are skipped and backslashes count as slashes,
userinfo (up to the last `@`) is dropped, an optional `:digits` port is
dropped from `hostname`, the host must be non-empty and is ASCII
case-folded; for every other scheme either a `//`-introduced authority
(host may be empty and is an opaque host, not case-folded) or an opaque
path. The pathname is read up to `?` or `#` and defaults to `/` for
special schemes (empty otherwise). The constructor throws (`none`) on a
missing scheme, a special-scheme URL without a host, a non-digit port, or
a space in the host. Percent-encoding, IDNA, IPv6 host literals,
tab/newline stripping, input trimming and the 65535 port bound are outside
the model. -/

structure UrlParts where
  /-- `URL.protocol`, e.g. `"https:"` (lower-cased scheme plus colon). -/
  protocol : List Char
  /-- `URL.hostname`: no port, no userinfo; empty for opaque-path URLs. -/
  hostname : List Char
  /-- `URL.pathname`. -/
  pathname : List Char
  deriving DecidableEq, Repr

/-- ASCII lower-casing of one character (`A`–`Z` to `a`–`z`). -/
def lowerAscii (c : Char) : Char :=
  if 65 ≤ c.toNat ∧ c.toNat ≤ 90 then Char.ofNat (c.toNat + 32) else c

/-- ASCII lower-casing of a string. -/
def lowerStr (l : List Char) : List Char := l.map lowerAscii

def isAsciiLetter (c : Char) : Bool :=
  (65 ≤ c.toNat && c.toNat ≤ 90) || (97 ≤ c.toNat && c.toNat ≤ 122)

/-- Characters allowed in a URL scheme after its first letter. -/
def isSchemeChar (c : Char) : Bool :=
  isAsciiLetter c || (48 ≤ c.toNat && c.toNat ≤ 57) || c = '+' || c = '-' || c = '.'

/-- Scheme of an absolute URL: `alpha *(alpha|digit|+|-|.) ":"`. Returns the
lower-cased scheme and the part after the colon; `none` when the input has
no scheme (the constructor throws). -/
def parseScheme (l : List Char) : Option (List Char × List Char) :=
  match l with
  | [] => none
  | c :: _ =>
      if isAsciiLetter c then
        match l.dropWhile isSchemeChar with
        | [] => none
        | c' :: r => if c' = ':' then some (lowerStr (l.takeWhile isSchemeChar), r) else none
      else none

/-- The WHATWG special schemes handled by the extension's URLs (`file` is
treated with the non-special authority rules, which agree with its
empty-host behaviour). -/
def specialSchemes : List (List Char) :=
  ["http".data, "https".data, "ws".data, "wss".data, "ftp".data]

/-- Characters that terminate an authority. -/
def authDelim (c : Char) : Bool := c = '/' || c = '?' || c = '#'

/-- Drop the userinfo: keep the part after the last `@`. -/
def splitUserinfo (auth : List Char) : List Char :=
  (auth.reverse.takeWhile (fun c => c ≠ '@')).reverse

/-- Host of an authority: after the userinfo, before the port colon. -/
def hostOfAuth (auth : List Char) : List Char :=
  (splitUserinfo auth).takeWhile (fun c => c ≠ ':')

/-- Port part of an authority (with its leading colon, possibly absent). -/
def portOfAuth (auth : List Char) : List Char :=
  (splitUserinfo auth).dropWhile (fun c => c ≠ ':')

/-- A port is valid when absent or all digits after the colon. -/
def portOk (p : List Char) : Bool :=
  match p with
  | [] => true
  | _ :: ds => ds.all Char.isDigit

/-- Modelled forbidden-host-code-point check. -/
def hostCharsOk (h : List Char) : Bool := h.all (fun c => c ≠ ' ')

/-- Backslashes count as slashes in special-scheme URLs. -/
def slashify (c : Char) : Char := if c = '\\' then '/' else c

/-- An opaque-path URL (`mailto:user@host`, ...): empty host, the rest up
to `?`/`#` as the pathname. -/
def parseOpaque (proto rest : List Char) : UrlParts :=
  ⟨proto, [], rest.takeWhile (fun c => c ≠ '?' && c ≠ '#')⟩

/-- Authority-then-path parsing shared by both regimes: `r` holds the
authority (up to `/`, `?` or `#`) followed by the path; `special` selects
the host-required, case-folded, `/`-defaulted behaviour. -/
def parseAuthority (proto r : List Char) (special : Bool) : Option UrlParts :=
  if special = true ∧ hostOfAuth (r.takeWhile (fun c => !authDelim c)) = [] then none
  else if portOk (portOfAuth (r.takeWhile (fun c => !authDelim c))) = false then none
  else if hostCharsOk (hostOfAuth (r.takeWhile (fun c => !authDelim c))) = false then none
  else
    some ⟨proto,
      (if special = true then lowerStr (hostOfAuth (r.takeWhile (fun c => !authDelim c)))
       else hostOfAuth (r.takeWhile (fun c => !authDelim c))),
      (match r.dropWhile (fun c => !authDelim c) with
       | [] => if special = true then ['/'] else []
       | c :: _ =>
           if c = '/' then
             (r.dropWhile (fun c => !authDelim c)).takeWhile (fun c => c ≠ '?' && c ≠ '#')
           else if special = true then ['/'] else [])⟩

/-- `new URL(s)` on the character list of `s`: `some` parts on success,
`none` where the constructor throws. -/
def parseUrlCore (l : List Char) : Option UrlParts :=
  match parseScheme l with
  | none => none
  | some (scheme, rest) =>
      if specialSchemes.contains scheme then
        parseAuthority (scheme ++ [':'])
          ((rest.map slashify).dropWhile (fun c => c = '/')) true
      else
        match rest with
        | a :: b :: r =>
            if a = '/' ∧ b = '/' then parseAuthority (scheme ++ [':']) r false
            else some (parseOpaque (scheme ++ [':']) (a :: b :: r))
        | _ => some (parseOpaque (scheme ++ [':']) rest)

/-- Does the URL parse in an authority form (a special scheme, or any
scheme followed by `//`)? Masking is idempotent exactly on these inputs
and on constructor failures. -/
def authorityForm (l : List Char) : Bool :=
  match parseScheme l with
  | none => false
  | some (scheme, rest) =>
      specialSchemes.contains scheme ||
      (match rest with
       | a :: b :: _ => a == '/' && b == '/'
       | _ => false)

def parseUrl (s : String) : Option UrlParts := parseUrlCore s.data

/-- **C3 counterexample.** With a caller override that is not a well-formed
absolute HTTP/HTTPS URL (and no tab or global webhook at all), the code
does not fail with a no-webhook-configured error — it resolves to the
malformed string and proceeds to POST to it. -/
theorem webhook_no_validation_counterexample :
    resolveWebhookUrl (some "not-a-url") none none = .ok "not-a-url" ∧
    parseUrl "not-a-url" = none ∧
    resolveWebhookUrl (some "not-a-url") none none ≠ .error .noWebhookConfigured := by
  refine ⟨by decide, by decide, by decide⟩

theorem firstNonBlank_cons_blank {x : Option String} {rest : List (Option String)}
    (hx : jsBlank x = true) : firstNonBlank (x :: rest) = firstNonBlank rest := by
  simp [firstNonBlank, hx]

theorem firstNonBlank_cons_nonblank {x : Option String} {rest : List (Option String)}
    (hx : jsBlank x = false) : firstNonBlank (x :: rest) = x := by
  simp [firstNonBlank, hx]

/-- **C3 (amended).** The effective webhook URL is the first non-blank of
caller override, tab webhook, global default. Resolution succeeds with
exactly that string whenever it differs from the sentinel placeholder
`YOUR_N8N_WEBHOOK_URL` — no well-formedness check is applied — and fails
iff all three are blank or the first non-blank one is the sentinel (the
error being no-webhook-configured only when the global level was reached;
a sentinel override or tab webhook aborts with an invalid-webhook error
instead of falling through). -/
theorem webhook_resolution_precedence (override cfgWebhook global : Option String) :
    (∀ u, resolveWebhookUrl override cfgWebhook global = .ok u ↔
      (firstNonBlank [override, cfgWebhook, global] = some u ∧ u ≠ WEBHOOK_SENTINEL)) ∧
    ((∃ e, resolveWebhookUrl override cfgWebhook global = .error e) ↔
      (firstNonBlank [override, cfgWebhook, global] = none ∨
       firstNonBlank [override, cfgWebhook, global] = some WEBHOOK_SENTINEL)) ∧
    (resolveWebhookUrl override cfgWebhook global = .error .noWebhookConfigured ↔
      (jsBlank override = true ∧ jsBlank cfgWebhook = true ∧
        (jsBlank global = true ∨ global = some WEBHOOK_SENTINEL))) := by
  have hsome : ∀ (s : String), s ≠ WEBHOOK_SENTINEL →
      ((some s : Option String) == some WEBHOOK_SENTINEL) = false := by
    intro s hs
    simpa using hs
  cases ho : jsBlank override with
  | false =>
    have hfnb : firstNonBlank [override, cfgWebhook, global] = override :=
      firstNonBlank_cons_nonblank ho
    obtain ⟨o, rfl⟩ : ∃ o, override = some o := by
      cases override with
      | none => simp [jsBlank] at ho
      | some o => exact ⟨o, rfl⟩
    by_cases hsent : o = WEBHOOK_SENTINEL
    · subst hsent
      have hres : resolveWebhookUrl (some WEBHOOK_SENTINEL) cfgWebhook global
          = .error .invalidOverrideWebhook := by
        unfold resolveWebhookUrl
        rw [ho]
        simp
      rw [hres, hfnb]
      refine ⟨by simp, ⟨fun _ => Or.inr rfl, fun _ => ⟨_, rfl⟩⟩, ?_⟩
      constructor
      · intro h
        simp at h
      · rintro ⟨h, -⟩
        exact absurd h (by simp [ho])
    · have hres : resolveWebhookUrl (some o) cfgWebhook global = .ok o := by
        unfold resolveWebhookUrl
        rw [ho, hsome o hsent]
        simp
      rw [hres, hfnb]
      refine ⟨?_, by simp [hsent], ?_⟩
      · intro u
        constructor
        · intro h
          injection h with h
          subst h
          exact ⟨rfl, hsent⟩
        · rintro ⟨h, -⟩
          injection h with h
          subst h
          rfl
      · constructor
        · intro h
          simp at h
        · rintro ⟨h, -⟩
          exact absurd h (by simp [ho])
  | true =>
    have hfnb0 : firstNonBlank [override, cfgWebhook, global]
        = firstNonBlank [cfgWebhook, global] := firstNonBlank_cons_blank ho
    cases hc : jsBlank cfgWebhook with
    | false =>
      have hfnb : firstNonBlank [override, cfgWebhook, global] = cfgWebhook := by
        rw [hfnb0]
        exact firstNonBlank_cons_nonblank hc
      obtain ⟨c, rfl⟩ : ∃ c, cfgWebhook = some c := by
        cases cfgWebhook with
        | none => simp [jsBlank] at hc
        | some c => exact ⟨c, rfl⟩
      by_cases hsent : c = WEBHOOK_SENTINEL
      · subst hsent
        have hres : resolveWebhookUrl override (some WEBHOOK_SENTINEL) global
            = .error .invalidTabWebhook := by
          unfold resolveWebhookUrl
          rw [ho, hc]
          simp
        rw [hres, hfnb]
        refine ⟨by simp, ⟨fun _ => Or.inr rfl, fun _ => ⟨_, rfl⟩⟩, ?_⟩
        constructor
        · intro h
          simp at h
        · rintro ⟨-, h, -⟩
          exact absurd h (by simp [hc])
      · have hres : resolveWebhookUrl override (some c) global = .ok c := by
          unfold resolveWebhookUrl
          rw [ho, hc, hsome c hsent]
          simp
        rw [hres, hfnb]
        refine ⟨?_, by simp [hsent], ?_⟩
        · intro u
          constructor
          · intro h
            injection h with h
            subst h
            exact ⟨rfl, hsent⟩
          · rintro ⟨h, -⟩
            injection h with h
            subst h
            rfl
        · constructor
          · intro h
            simp at h
          · rintro ⟨-, h, -⟩
            exact absurd h (by simp [hc])
    | true =>
      have hfnb1 : firstNonBlank [override, cfgWebhook, global]
          = firstNonBlank [global] := by
        rw [hfnb0]
        exact firstNonBlank_cons_blank hc
      cases hg : jsBlank global with
      | true =>
        have hfnb : firstNonBlank [override, cfgWebhook, global] = none := by
          rw [hfnb1]
          exact firstNonBlank_cons_blank hg
        have hres : resolveWebhookUrl override cfgWebhook global
            = .error .noWebhookConfigured := by
          unfold resolveWebhookUrl
          rw [ho, hc, hg]
          simp
        rw [hres, hfnb]
        exact ⟨by simp, ⟨fun _ => Or.inl rfl, fun _ => ⟨_, rfl⟩⟩,
          ⟨fun _ => ⟨rfl, rfl, Or.inl rfl⟩, fun _ => rfl⟩⟩
      | false =>
        have hfnb : firstNonBlank [override, cfgWebhook, global] = global := by
          rw [hfnb1]
          exact firstNonBlank_cons_nonblank hg
        obtain ⟨g, rfl⟩ : ∃ g, global = some g := by
          cases global with
          | none => simp [jsBlank] at hg
          | some g => exact ⟨g, rfl⟩
        by_cases hsent : g = WEBHOOK_SENTINEL
        · subst hsent
          have hres : resolveWebhookUrl override cfgWebhook (some WEBHOOK_SENTINEL)
              = .error .noWebhookConfigured := by
            unfold resolveWebhookUrl
            rw [ho, hc]
            simp
          rw [hres, hfnb]
          exact ⟨by simp, ⟨fun _ => Or.inr rfl, fun _ => ⟨_, rfl⟩⟩,
            ⟨fun _ => ⟨rfl, rfl, Or.inr rfl⟩, fun _ => rfl⟩⟩
        · have hres : resolveWebhookUrl override cfgWebhook (some g) = .ok g := by
            unfold resolveWebhookUrl
            rw [ho, hc, hsome g hsent]
            simp [hg]
          rw [hres, hfnb]
          refine ⟨?_, by simp [hsent], ?_⟩
          · intro u
            constructor
            · intro h
              injection h with h
              subst h
              exact ⟨rfl, hsent⟩
            · rintro ⟨h, -⟩
              injection h with h
              subst h
              rfl
          · constructor
            · intro h
              simp at h
            · rintro ⟨-, -, h | h⟩
              · exact absurd h (by simp [hg])
              · injection h with h
                exact absurd h hsent

/-! ## Extraction retry loop (`refreshPage`, newer background service worker)

After reloading the tab and waiting for `complete`, the code schedules
`tryExtract` once after a 5000 ms delay, and on each failure reschedules it
after 3000 ms while `retries < maxRetries` (`maxRetries = 10`, `retries`
starting at 0 and incremented per failed attempt). We model the attempt
outcomes as a predicate on the attempt index and count the attempts the
loop performs; the remaining budget `maxRetries - retries` is the
structural recursion measure. -/

def maxRetries : Nat := 10

/-- 3000 ms between retries. -/
def retryDelayMs : Nat := 3000

/-- 5000 ms initial delay before the first attempt. -/
def initialDelayMs : Nat := 5000

/-- Number of `tryExtract` invocations performed from a state where
`budget = maxRetries - retries` retries remain, when attempt `i` succeeds
iff `succ i`. -/
def tryExtractCount (succ : Nat → Bool) (attempt : Nat) : Nat → Nat
  | 0 => 1
  | budget + 1 => if succ attempt then 1 else 1 + tryExtractCount succ (attempt + 1) budget

/-- Total `tryExtract` attempts of one `refreshPage` cycle. -/
def totalAttempts (succ : Nat → Bool) : Nat :=
  tryExtractCount succ 0 maxRetries

/-- Wall-clock delay (ms) spent before attempt `i` (0-based): the 5 s
initial deferral plus 3 s per preceding retry. -/
def attemptDelayMs (i : Nat) : Nat := initialDelayMs + retryDelayMs * i

theorem tryExtractCount_le (succ : Nat → Bool) (attempt budget : Nat) :
    tryExtractCount succ attempt budget ≤ budget + 1 := by
  induction budget generalizing attempt with
  | zero => simp [tryExtractCount]
  | succ b ih =>
      unfold tryExtractCount
      by_cases h : succ attempt = true
      · simp [h]
      · simp only [h, Bool.false_eq_true, if_false]
        have := ih (attempt + 1)
        omega

/-- **C6 counterexample.** When every attempt fails, the loop performs 11
attempts — one initial attempt plus ten retries — not at most 10 as the
claim states. -/
theorem retry_budget_counterexample :
    totalAttempts (fun _ => false) = 11 ∧ ¬ totalAttempts (fun _ => false) ≤ 10 := by
  refine ⟨by decide, by decide⟩

/-- **C6 (amended).** The extraction retry loop performs at most
`maxRetries + 1 = 11` attempts in total (one initial attempt plus up to ten
retries) and exactly 11 when every attempt fails; the first attempt is
deferred 5 s after the wait-for-complete step and consecutive attempts are
3 s apart (so the last possible attempt starts 5 s + 10·3 s = 35 s after
it), and the loop stops once that budget is exhausted. -/
theorem retry_budget_eleven (succ : Nat → Bool) :
    totalAttempts succ ≤ 11 ∧
    totalAttempts (fun _ => false) = 11 ∧
    attemptDelayMs 0 = 5000 ∧
    (∀ i, attemptDelayMs (i + 1) - attemptDelayMs i = 3000) ∧
    attemptDelayMs (totalAttempts (fun _ => false) - 1) = 35000 := by
  refine ⟨?_, by decide, by decide, ?_, by decide⟩
  · have := tryExtractCount_le succ 0 maxRetries
    simpa [totalAttempts, maxRetries] using this
  · intro i
    simp only [attemptDelayMs, initialDelayMs, retryDelayMs]
    omega

/-! ## `stopMonitoring` / `handleStopMonitoring` (newer background service
worker)

`stopMonitoring` clears the tab's interval if one exists, deletes the tab's
entry from the `monitoringIntervals` map and removes the persisted
configuration; it reports nothing. `handleStopMonitoring` answers
`{success: true, message: 'Monitoring stopped'}` whenever a truthy tab id is
available, and `{success: false, message: 'No tab ID available'}` otherwise.
The two `Map`s keyed by tab id are modelled with key-filtering deletes. -/

/-- The background state the stop path touches: the live interval map and
the persisted per-tab configs. -/
structure MonState where
  intervals : List (Nat × Nat)
  configs : List (Nat × MonConfig)
  deriving DecidableEq, Repr

/-- A `sendResponse` payload `{success, message}`. -/
structure JsResponse where
  success : Bool
  message : String
  deriving DecidableEq, Repr

/-- `stopMonitoring(tabId)`: clear the interval (a no-op on the state when
none is registered) and delete the stored config. -/
def stopMonitoring (s : MonState) (tabId : Nat) : MonState :=
  { intervals := s.intervals.filter (fun p => p.1 != tabId)
    configs := s.configs.filter (fun p => p.1 != tabId) }

/-- `handleStopMonitoring(request)`: `request.tabId || sender.tab?.id`
modelled as an optional id that is falsy when absent or 0. -/
def handleStopMonitoring (s : MonState) (tabId : Option Nat) :
    JsResponse × MonState :=
  match tabId with
  | none => (⟨false, "No tab ID available"⟩, s)
  | some t =>
      if t = 0 then (⟨false, "No tab ID available"⟩, s)
      else (⟨true, "Monitoring stopped"⟩, stopMonitoring s t)

/-- **C7 counterexample.** Stopping the same monitored tab twice: the second
`stopMonitoring` request also answers success — not a target-not-found
error — even though the tab is no longer monitored. -/
theorem stop_twice_counterexample :
    (handleStopMonitoring
        (handleStopMonitoring ⟨[(7, 1)], [(7, ⟨true, none, 0⟩)]⟩ (some 7)).2
        (some 7)).1
      = ⟨true, "Monitoring stopped"⟩ := by
  decide

/-- **C7 (amended).** `stopMonitoring` never reports a missing target: for
any truthy tab id, every `stopMonitoring` request — including one for a tab
that is not monitored — answers `{success: true, message: 'Monitoring
stopped'}`, and stopping is idempotent: a second stop returns the same
success response and leaves the state exactly as it was after the first
stop (tab absent from the live interval map and from the stored configs). -/
theorem stop_idempotent_success (s : MonState) (t : Nat) (ht : t ≠ 0) :
    (handleStopMonitoring s (some t)).1 = ⟨true, "Monitoring stopped"⟩ ∧
    (handleStopMonitoring (handleStopMonitoring s (some t)).2 (some t)).1
      = ⟨true, "Monitoring stopped"⟩ ∧
    (handleStopMonitoring (handleStopMonitoring s (some t)).2 (some t)).2
      = (handleStopMonitoring s (some t)).2 ∧
    ((handleStopMonitoring s (some t)).2.intervals.filter (fun p => p.1 == t)) = [] ∧
    ((handleStopMonitoring s (some t)).2.configs.filter (fun p => p.1 == t)) = [] := by
  have hfilter_idem : ∀ (α : Type) (p : α → Bool) (l : List α),
      (l.filter p).filter p = l.filter p := by
    intro α p l
    induction l with
    | nil => rfl
    | cons a rest ih =>
        by_cases h : p a = true
        · simp [List.filter, h, ih]
        · simp only [List.filter, h]
          exact ih
  have hfix : ∀ l : List (Nat × Nat),
      (l.filter (fun p => p.1 != t)).filter (fun p => p.1 != t)
        = l.filter (fun p => p.1 != t) := fun l => hfilter_idem _ _ l
  have hfix2 : ∀ l : List (Nat × MonConfig),
      (l.filter (fun p => p.1 != t)).filter (fun p => p.1 != t)
        = l.filter (fun p => p.1 != t) := fun l => hfilter_idem _ _ l
  have hgone : ∀ (α : Type) (l : List (Nat × α)),
      (l.filter (fun p => p.1 != t)).filter (fun p => p.1 == t) = [] := by
    intro α l
    induction l with
    | nil => rfl
    | cons p rest ih =>
        by_cases h : p.1 = t
        · simp [List.filter, h, ih]
        · have h1 : (p.1 != t) = true := by simpa using h
          have h2 : (p.1 == t) = false := by simpa using h
          simp [List.filter, h1, h2, ih]
  simp only [handleStopMonitoring, stopMonitoring, if_neg ht]
  exact ⟨trivial, trivial, by simp [hfix, hfix2], hgone Nat s.intervals, hgone MonConfig s.configs⟩

/-- **C7 witness.** Instantiation of the double–stop law at a concrete
state. -/
theorem stop_idempotent_success_witness :
    (handleStopMonitoring (⟨[(7, 1)], []⟩ : MonState) (some 7)).1
      = ⟨true, "Monitoring stopped"⟩ ∧
    (handleStopMonitoring
        (handleStopMonitoring (⟨[(7, 1)], []⟩ : MonState) (some 7)).2 (some 7)).1
      = ⟨true, "Monitoring stopped"⟩ := by
  have h := stop_idempotent_success ⟨[(7, 1)], []⟩ 7 (by decide)
  exact ⟨h.1, h.2.1⟩

/-! ## `startMonitoring` validation (newer background service worker) and
the UI-side interval check

`startMonitoring(tabId, config)` throws `'Invalid monitoring configuration'`
iff `!config.selector || !config.refreshInterval` — an empty selector or a
zero/absent interval (milliseconds); no minimum is enforced there. The
5-second minimum lives in the UI: `popup.js` / `monitor.js` run
`parseInt(refreshIntervalInput.value)` (whole seconds) and reject
`isNaN(interval) || interval < 5` before ever messaging the background. -/

/-- Outcome of the `startMonitoring` validation gate. -/
def startMonitoringValidates (selector : String) (refreshIntervalMs : Nat) : Bool :=
  !(selector = "" || refreshIntervalMs = 0)

/-- JavaScript `parseInt` on a decimal field value: the leading digit run
(`NaN` when the string does not start with a digit, modelled as `none`). -/
def jsParseInt (s : String) : Option Nat :=
  let ds := s.data.takeWhile Char.isDigit
  if ds = [] then none
  else some (ds.foldl (fun acc c => acc * 10 + (c.toNat - '0'.toNat)) 0)

/-- The popup/monitor form check
`isNaN(interval) || interval < 5 → reject`. -/
def uiIntervalAccepted (field : String) : Bool :=
  match jsParseInt field with
  | none => false
  | some i => !(i < 5)

/-- **C9 counterexample.** The background `startMonitoring` accepts a
configuration whose interval is 4999 ms — below the claimed 5-second
minimum — with no `invalid_interval` rejection. -/
theorem interval_validation_counterexample :
    startMonitoringValidates "#content" 4999 = true := by
  decide

/-- **C9 (amended).** `startMonitoring` rejects exactly the configurations
with an empty selector or a zero interval (one generic invalid-configuration
error; any positive interval, in particular one under 5 seconds, is
accepted). The 5-second minimum is enforced only by the UI form validation,
which parses the seconds field with `parseInt` and rejects values under 5:
an input of `5` is accepted and `4.999` (parsed to 4) is rejected. -/
theorem interval_validation_characterisation (selector : String) (ms : Nat) :
    (startMonitoringValidates selector ms = true ↔ (selector ≠ "" ∧ ms ≠ 0)) ∧
    startMonitoringValidates "#content" 4999 = true ∧
    uiIntervalAccepted "5" = true ∧
    uiIntervalAccepted "4.999" = false := by
  refine ⟨?_, by decide, by decide, by decide⟩
  unfold startMonitoringValidates
  constructor
  · intro h
    simp only [Bool.not_eq_true', Bool.or_eq_false_iff, decide_eq_false_iff_not] at h
    exact h
  · intro h
    simp only [Bool.not_eq_true', Bool.or_eq_false_iff, decide_eq_false_iff_not]
    exact h

/-! ## Webhook-URL masking (`ActivityLogManager.maskUrl`,
`src/background/activity-log.js`)

`maskUrl(url)` returns `undefined` for a falsy input, otherwise tries
`new URL(url)`: on success it emits
`protocol + "//" + hostname + pathPreview` where `pathPreview` truncates a
pathname longer than 20 characters to its 20-character prefix plus `...`
(the `//` is emitted even for opaque-path URLs such as `mailto:`, whose
hostname is empty); a constructor failure yields the literal `***`. -/

/-- `urlObj.pathname.length > 20 ? pathname.substring(0, 20) + '...' :
pathname`. -/
def pathPreview (p : List Char) : List Char :=
  if 20 < p.length then p.take 20 ++ "...".data else p

/-- The masked rendering `${protocol}//${hostname}${pathPreview}`. -/
def renderMask (u : UrlParts) : List Char :=
  u.protocol ++ '/' :: '/' :: (u.hostname ++ pathPreview u.pathname)

/-- `ActivityLogManager.maskUrl` on the character list of the URL. -/
def maskUrlCore (l : List Char) : Option (List Char) :=
  if l = [] then none
  else
    match parseUrlCore l with
    | some u => some (renderMask u)
    | none => some "***".data

/-- `ActivityLogManager.maskUrl(url)`; `none` models `undefined`. -/
def maskUrl (s : String) : Option String :=
  (maskUrlCore s.data).map String.mk

/-! ### List and character facts -/

theorem takeWhile_all {p : α → Bool} : ∀ {l : List α},
    (∀ x ∈ l, p x = true) → l.takeWhile p = l := by
  intro l
  induction l with
  | nil => intro _; rfl
  | cons a t ih =>
      intro h
      rw [List.takeWhile_cons_of_pos (h a (by simp))]
      rw [ih (fun x hx => h x (by simp [hx]))]

theorem dropWhile_all {p : α → Bool} : ∀ {l : List α},
    (∀ x ∈ l, p x = true) → l.dropWhile p = [] := by
  intro l
  induction l with
  | nil => intro _; rfl
  | cons a t ih =>
      intro h
      rw [List.dropWhile_cons_of_pos (h a (by simp))]
      exact ih (fun x hx => h x (by simp [hx]))

theorem takeWhile_append_cons {p : α → Bool} {l : List α} {c : α} {r : List α}
    (hl : ∀ x ∈ l, p x = true) (hc : p c = false) :
    ((l ++ c :: r).takeWhile p = l) ∧ ((l ++ c :: r).dropWhile p = c :: r) := by
  induction l with
  | nil =>
      constructor
      · rw [List.nil_append]
        exact List.takeWhile_cons_of_neg (by simp [hc])
      · rw [List.nil_append]
        exact List.dropWhile_cons_of_neg (by simp [hc])
  | cons a t ih =>
      have ha : p a = true := hl a (by simp)
      have iht := ih (fun x hx => hl x (by simp [hx]))
      constructor
      · rw [List.cons_append, List.takeWhile_cons_of_pos ha, iht.1]
      · rw [List.cons_append, List.dropWhile_cons_of_pos ha, iht.2]

theorem map_eq_self_of {f : α → α} : ∀ {l : List α},
    (∀ x ∈ l, f x = x) → l.map f = l := by
  intro l
  induction l with
  | nil => intro _; rfl
  | cons a t ih =>
      intro h
      rw [List.map_cons, h a (by simp), ih (fun x hx => h x (by simp [hx]))]

theorem char_toNat_ofNat {n : Nat} (h : n.isValidChar) : (Char.ofNat n).toNat = n := by
  unfold Char.ofNat
  rw [dif_pos h]
  rfl

theorem lowerAscii_toNat_upper {c : Char} (h : 65 ≤ c.toNat ∧ c.toNat ≤ 90) :
    (lowerAscii c).toNat = c.toNat + 32 := by
  unfold lowerAscii
  rw [if_pos h]
  exact char_toNat_ofNat (Or.inl (by omega))

theorem lowerAscii_not_upper {c : Char} (h : ¬ (65 ≤ c.toNat ∧ c.toNat ≤ 90)) :
    lowerAscii c = c := by
  unfold lowerAscii
  rw [if_neg h]

theorem lowerAscii_idem (c : Char) : lowerAscii (lowerAscii c) = lowerAscii c := by
  by_cases h : 65 ≤ c.toNat ∧ c.toNat ≤ 90
  · have ht := lowerAscii_toNat_upper h
    apply lowerAscii_not_upper
    rw [ht]
    omega
  · rw [lowerAscii_not_upper h, lowerAscii_not_upper h]

theorem lowerStr_idem (l : List Char) : lowerStr (lowerStr l) = lowerStr l := by
  unfold lowerStr
  rw [List.map_map]
  exact List.map_congr_left (fun c _ => by simp [Function.comp, lowerAscii_idem])

/-- Lower-casing cannot produce a character below `'a'` (such as the URL
delimiters), so it preserves disequality with them. -/
theorem lowerAscii_ne_low {c d : Char} (hd : d.toNat < 97) (hne : ¬ c = d) :
    ¬ lowerAscii c = d := by
  by_cases h : 65 ≤ c.toNat ∧ c.toNat ≤ 90
  · intro heq
    have ht := lowerAscii_toNat_upper h
    rw [heq] at ht
    omega
  · rw [lowerAscii_not_upper h]
    exact hne

theorem isAsciiLetter_iff (c : Char) :
    isAsciiLetter c = true ↔
      (65 ≤ c.toNat ∧ c.toNat ≤ 90) ∨ (97 ≤ c.toNat ∧ c.toNat ≤ 122) := by
  simp [isAsciiLetter]

theorem isAsciiLetter_lowerAscii {c : Char} (h : isAsciiLetter c = true) :
    isAsciiLetter (lowerAscii c) = true := by
  by_cases hu : 65 ≤ c.toNat ∧ c.toNat ≤ 90
  · have ht := lowerAscii_toNat_upper hu
    rw [isAsciiLetter_iff]
    right
    omega
  · rw [lowerAscii_not_upper hu]
    exact h

theorem isSchemeChar_lowerAscii {c : Char} (h : isSchemeChar c = true) :
    isSchemeChar (lowerAscii c) = true := by
  by_cases hu : 65 ≤ c.toNat ∧ c.toNat ≤ 90
  · have hlet : isAsciiLetter (lowerAscii c) = true := by
      have ht := lowerAscii_toNat_upper hu
      rw [isAsciiLetter_iff]
      right
      omega
    unfold isSchemeChar
    rw [hlet]
    simp
  · rw [lowerAscii_not_upper hu]
    exact h

theorem isAsciiLetter_isSchemeChar {c : Char} (h : isAsciiLetter c = true) :
    isSchemeChar c = true := by
  unfold isSchemeChar
  rw [h]
  simp

/-! ### Scheme parsing -/

theorem parseScheme_sound {l sch rest : List Char}
    (h : parseScheme l = some (sch, rest)) :
    (∃ c t, sch = c :: t ∧ isAsciiLetter c = true) ∧
    (∀ c ∈ sch, isSchemeChar c = true) ∧ lowerStr sch = sch := by
  unfold parseScheme at h
  cases l with
  | nil => cases h
  | cons c0 t0 =>
      simp only [] at h
      by_cases halpha : isAsciiLetter c0 = true
      · rw [if_pos halpha] at h
        cases hdw : (c0 :: t0).dropWhile isSchemeChar with
        | nil => rw [hdw] at h; cases h
        | cons c' r' =>
            rw [hdw] at h
            simp only [] at h
            by_cases hcolon : c' = ':'
            · rw [if_pos hcolon] at h
              injection h with h
              injection h with h1 h2
              subst h1
              have hc0 : isSchemeChar c0 = true := isAsciiLetter_isSchemeChar halpha
              have htw : (c0 :: t0).takeWhile isSchemeChar
                  = c0 :: t0.takeWhile isSchemeChar := List.takeWhile_cons_of_pos hc0
              refine ⟨⟨lowerAscii c0, lowerStr (t0.takeWhile isSchemeChar), ?_, ?_⟩, ?_, ?_⟩
              · rw [htw]
                rfl
              · exact isAsciiLetter_lowerAscii halpha
              · intro c hc
                unfold lowerStr at hc
                obtain ⟨x, hx, rfl⟩ := List.mem_map.mp hc
                exact isSchemeChar_lowerAscii (List.mem_takeWhile_imp hx)
              · exact lowerStr_idem _
            · rw [if_neg hcolon] at h
              cases h
      · rw [if_neg halpha] at h
        cases h

theorem parseScheme_render {sch rest0 : List Char}
    (hhead : ∃ c t, sch = c :: t ∧ isAsciiLetter c = true)
    (hchars : ∀ c ∈ sch, isSchemeChar c = true)
    (hlower : lowerStr sch = sch) :
    parseScheme (sch ++ ':' :: rest0) = some (sch, rest0) := by
  obtain ⟨c, t, rfl, hc⟩ := hhead
  have hchars' : ∀ x ∈ t, isSchemeChar x = true := fun x hx => hchars x (by simp [hx])
  have hcolonchar : isSchemeChar ':' = false := by decide
  have htw := (takeWhile_append_cons (r := rest0) hchars' hcolonchar).1
  have hdw := (takeWhile_append_cons (r := rest0) hchars' hcolonchar).2
  have hcchar : isSchemeChar c = true := hchars c (by simp)
  unfold parseScheme
  simp only [List.cons_append]
  rw [if_pos hc]
  rw [List.dropWhile_cons_of_pos hcchar, hdw]
  simp only []
  rw [if_pos trivial]
  rw [List.takeWhile_cons_of_pos hcchar, htw]
  rw [hlower]

/-! ### Authority parsing -/

/-- Parser invariant on the scheme of a produced `protocol`. -/
def SchemeInv (sp : Bool) (p : List Char) : Prop :=
  ∃ sch, p = sch ++ [':'] ∧
    (∃ c t, sch = c :: t ∧ isAsciiLetter c = true) ∧
    (∀ c ∈ sch, isSchemeChar c = true) ∧
    lowerStr sch = sch ∧
    specialSchemes.contains sch = sp

/-- Parser invariant on a produced `hostname`. -/
def HostInv (sp : Bool) (h : List Char) : Prop :=
  (∀ c ∈ h, ¬ c = '/' ∧ ¬ c = '?' ∧ ¬ c = '#' ∧ ¬ c = '@' ∧ ¬ c = ':' ∧ ¬ c = ' ') ∧
  (sp = true → h ≠ [] ∧ lowerStr h = h ∧ ∀ c ∈ h, ¬ c = '\\')

/-- Parser invariant on a produced `pathname` of an authority-form URL. -/
def PathInv (sp : Bool) (p : List Char) : Prop :=
  (∀ c ∈ p, ¬ c = '?' ∧ ¬ c = '#') ∧
  (sp = true → (∃ r, p = '/' :: r) ∧ ∀ c ∈ p, ¬ c = '\\') ∧
  (sp = false → p = [] ∨ ∃ r, p = '/' :: r)

/-- Everything a rendered mask needs to re-parse to itself. -/
def MaskInv (sp : Bool) (u : UrlParts) : Prop :=
  SchemeInv sp u.protocol ∧ HostInv sp u.hostname ∧ PathInv sp u.pathname

theorem splitUserinfo_subset {auth : List Char} :
    ∀ c ∈ splitUserinfo auth, c ∈ auth ∧ ¬ c = '@' := by
  intro c hc
  unfold splitUserinfo at hc
  rw [List.mem_reverse] at hc
  constructor
  · have h2 := (List.takeWhile_sublist _).subset hc
    exact List.mem_reverse.mp h2
  · have := List.mem_takeWhile_imp hc
    simpa using this

theorem splitUserinfo_id {h : List Char} (hno : ∀ c ∈ h, ¬ c = '@') :
    splitUserinfo h = h := by
  unfold splitUserinfo
  have heq : h.reverse.takeWhile (fun c => c ≠ '@') = h.reverse :=
    takeWhile_all (fun c hc => by simpa using hno c (List.mem_reverse.mp hc))
  rw [heq, List.reverse_reverse]

theorem hostOfAuth_subset {auth : List Char} :
    ∀ c ∈ hostOfAuth auth, c ∈ auth ∧ ¬ c = '@' ∧ ¬ c = ':' := by
  intro c hc
  unfold hostOfAuth at hc
  have h1 := List.mem_takeWhile_imp hc
  have h2 := (List.takeWhile_sublist _).subset hc
  have h3 := splitUserinfo_subset c h2
  exact ⟨h3.1, h3.2, by simpa using h1⟩

theorem hostOfAuth_id {h : List Char} (hno : ∀ c ∈ h, ¬ c = '@' ∧ ¬ c = ':') :
    hostOfAuth h = h ∧ portOfAuth h = [] := by
  unfold hostOfAuth portOfAuth
  rw [splitUserinfo_id (fun c hc => (hno c hc).1)]
  constructor
  · exact takeWhile_all (fun c hc => by simpa using (hno c hc).2)
  · exact dropWhile_all (fun c hc => by simpa using (hno c hc).2)

theorem parseAuthority_sound {proto r : List Char} {sp : Bool} {u : UrlParts}
    (h : parseAuthority proto r sp = some u)
    (hr : sp = true → ∀ c ∈ r, ¬ c = '\\') :
    u.protocol = proto ∧ HostInv sp u.hostname ∧ PathInv sp u.pathname := by
  have hauth : ∀ c ∈ r.takeWhile (fun c => !authDelim c),
      c ∈ r ∧ ¬ c = '/' ∧ ¬ c = '?' ∧ ¬ c = '#' := by
    intro c hc
    have h1 := List.mem_takeWhile_imp hc
    have h2 := (List.takeWhile_sublist _).subset hc
    have h3 : authDelim c = false := by simpa using h1
    unfold authDelim at h3
    simp only [Bool.or_eq_false_iff, decide_eq_false_iff_not] at h3
    exact ⟨h2, h3.1.1, h3.1.2, h3.2⟩
  unfold parseAuthority at h
  split at h
  · cases h
  · split at h
    · cases h
    · split at h
      · cases h
      · next hg1 hg2 hg3 =>
          injection h with h
          subst h
          refine ⟨rfl, ?_, ?_⟩
          · -- HostInv
            have hhost0 : ∀ c ∈ hostOfAuth (r.takeWhile (fun c => !authDelim c)),
                ¬ c = '/' ∧ ¬ c = '?' ∧ ¬ c = '#' ∧ ¬ c = '@' ∧ ¬ c = ':' ∧ ¬ c = ' ' := by
              intro c hc
              obtain ⟨hin, hat, hcl⟩ := hostOfAuth_subset c hc
              obtain ⟨hinr, h1, h2, h3⟩ := hauth c hin
              refine ⟨h1, h2, h3, hat, hcl, ?_⟩
              have hok : hostCharsOk (hostOfAuth (r.takeWhile (fun c => !authDelim c))) = true := by
                cases hv : hostCharsOk (hostOfAuth (r.takeWhile (fun c => !authDelim c)))
                · exact absurd hv hg3
                · rfl
              have := List.all_eq_true.mp hok c hc
              simpa using this
            have hbs0 : sp = true → ∀ c ∈ hostOfAuth (r.takeWhile (fun c => !authDelim c)),
                ¬ c = '\\' := by
              intro hsp c hc
              obtain ⟨hin, -, -⟩ := hostOfAuth_subset c hc
              obtain ⟨hinr, -, -, -⟩ := hauth c hin
              exact hr hsp c hinr
            cases hspv : sp with
            | false =>
                simp only [hspv, Bool.false_eq_true, if_false]
                refine ⟨hhost0, ?_⟩
                intro hcontra
                cases hcontra
            | true =>
                simp only [hspv, if_true]
                constructor
                · intro c hc
                  unfold lowerStr at hc
                  obtain ⟨x, hx, rfl⟩ := List.mem_map.mp hc
                  obtain ⟨x1, x2, x3, x4, x5, x6⟩ := hhost0 x hx
                  exact ⟨lowerAscii_ne_low (by decide) x1, lowerAscii_ne_low (by decide) x2,
                    lowerAscii_ne_low (by decide) x3, lowerAscii_ne_low (by decide) x4,
                    lowerAscii_ne_low (by decide) x5, lowerAscii_ne_low (by decide) x6⟩
                · intro _
                  have hne : hostOfAuth (r.takeWhile (fun c => !authDelim c)) ≠ [] := by
                    intro hnil
                    exact hg1 ⟨hspv, hnil⟩
                  refine ⟨?_, lowerStr_idem _, ?_⟩
                  · intro hnil
                    exact hne (List.map_eq_nil_iff.mp hnil)
                  · intro c hc
                    unfold lowerStr at hc
                    obtain ⟨x, hx, rfl⟩ := List.mem_map.mp hc
                    exact lowerAscii_ne_low (by decide) (hbs0 hspv x hx)
          · -- PathInv
            cases hafter : r.dropWhile (fun c => !authDelim c) with
            | nil =>
                simp only [hafter]
                cases hspv : sp with
                | true =>
                    simp only [if_pos rfl]
                    refine ⟨by decide, ?_, ?_⟩
                    · intro _
                      exact ⟨⟨[], rfl⟩, by decide⟩
                    · intro hcontra
                      cases hcontra
                | false =>
                    simp only [Bool.false_eq_true, if_false]
                    refine ⟨by simp, ?_, ?_⟩
                    · intro hcontra
                      cases hcontra
                    · intro _
                      exact Or.inl rfl
            | cons c0 rest0 =>
                simp only [hafter]
                have hsubafter : ∀ x ∈ c0 :: rest0, x ∈ r := by
                  intro x hx
                  rw [← hafter] at hx
                  exact (List.dropWhile_sublist _).subset hx
                by_cases hc0 : c0 = '/'
                · rw [if_pos hc0]
                  subst hc0
                  have hpth : ∀ x ∈ ('/' :: rest0).takeWhile (fun c => c ≠ '?' && c ≠ '#'),
                      ¬ x = '?' ∧ ¬ x = '#' ∧ x ∈ r := by
                    intro x hx
                    have h1 := List.mem_takeWhile_imp hx
                    have h2 := (List.takeWhile_sublist _).subset hx
                    simp only [Bool.and_eq_true, decide_eq_true_eq] at h1
                    exact ⟨h1.1, h1.2, hsubafter x h2⟩
                  refine ⟨fun x hx => ⟨(hpth x hx).1, (hpth x hx).2.1⟩, ?_, ?_⟩
                  · intro hsp
                    constructor
                    · refine ⟨rest0.takeWhile (fun c => c ≠ '?' && c ≠ '#'), ?_⟩
                      rw [List.takeWhile_cons_of_pos (by decide)]
                    · intro x hx
                      exact hr hsp x (hpth x hx).2.2
                  · intro _
                    right
                    refine ⟨rest0.takeWhile (fun c => c ≠ '?' && c ≠ '#'), ?_⟩
                    rw [List.takeWhile_cons_of_pos (by decide)]
                · rw [if_neg hc0]
                  cases hspv : sp with
                  | true =>
                      simp only [if_pos rfl]
                      refine ⟨by decide, ?_, ?_⟩
                      · intro _
                        exact ⟨⟨[], rfl⟩, by decide⟩
                      · intro hcontra
                        cases hcontra
                  | false =>
                      simp only [Bool.false_eq_true, if_false]
                      refine ⟨by simp, ?_, ?_⟩
                      · intro hcontra
                        cases hcontra
                      · intro _
                        exact Or.inl rfl

theorem parseAuthority_protocol {proto r : List Char} {sp : Bool} {u : UrlParts}
    (h : parseAuthority proto r sp = some u) : u.protocol = proto := by
  unfold parseAuthority at h
  split at h
  · cases h
  · split at h
    · cases h
    · split at h
      · cases h
      · injection h with h
        subst h
        rfl

theorem parseUrlCore_protocol {l : List Char} {u : UrlParts}
    (h : parseUrlCore l = some u) :
    ∃ sch rest, parseScheme l = some (sch, rest) ∧ u.protocol = sch ++ [':'] := by
  unfold parseUrlCore at h
  cases hps : parseScheme l with
  | none => rw [hps] at h; cases h
  | some p =>
      obtain ⟨sch, rest⟩ := p
      rw [hps] at h
      simp only [] at h
      refine ⟨sch, rest, rfl, ?_⟩
      by_cases hsp : specialSchemes.contains sch = true
      · rw [if_pos hsp] at h
        exact parseAuthority_protocol h
      · rw [Bool.not_eq_true] at hsp
        rw [hsp] at h
        simp only [Bool.false_eq_true, if_false] at h
        cases rest with
        | nil =>
            simp only [] at h
            injection h with h
            subst h
            rfl
        | cons a rest1 =>
            cases rest1 with
            | nil =>
                simp only [] at h
                injection h with h
                subst h
                rfl
            | cons b r =>
                simp only [] at h
                split at h
                · exact parseAuthority_protocol h
                · injection h with h
                  subst h
                  rfl

theorem parseUrlCore_authSound {l : List Char} {u : UrlParts}
    (hau : authorityForm l = true) (h : parseUrlCore l = some u) :
    ∃ sp, MaskInv sp u := by
  unfold parseUrlCore at h
  unfold authorityForm at hau
  cases hps : parseScheme l with
  | none => rw [hps] at hau; cases hau
  | some p =>
      obtain ⟨sch, rest⟩ := p
      rw [hps] at h hau
      simp only [] at h hau
      obtain ⟨hhead, hchars, hlower⟩ := parseScheme_sound hps
      by_cases hsp : specialSchemes.contains sch = true
      · rw [if_pos hsp] at h
        have hr : ∀ c ∈ ((rest.map slashify).dropWhile (fun c => c = '/')), ¬ c = '\\' := by
          intro x hx
          have hx2 : x ∈ rest.map slashify := (List.dropWhile_sublist _).subset hx
          obtain ⟨y, hy, rfl⟩ := List.mem_map.mp hx2
          unfold slashify
          by_cases hyb : y = '\\'
          · rw [if_pos hyb]; decide
          · rw [if_neg hyb]; exact hyb
        obtain ⟨hproto, hhost, hpath⟩ := parseAuthority_sound h (fun _ => hr)
        exact ⟨true, ⟨sch, hproto, hhead, hchars, hlower, hsp⟩, hhost, hpath⟩
      · rw [Bool.not_eq_true] at hsp
        rw [hsp] at h hau
        simp only [Bool.false_eq_true, if_false] at h
        simp only [Bool.false_or] at hau
        cases rest with
        | nil => simp only [] at hau; cases hau
        | cons a rest1 =>
            cases rest1 with
            | nil => simp only [] at hau; cases hau
            | cons b r =>
                simp only [] at hau
                rw [Bool.and_eq_true] at hau
                obtain ⟨ha, hb⟩ := hau
                rw [beq_iff_eq] at ha hb
                simp only [] at h
                rw [if_pos ⟨ha, hb⟩] at h
                obtain ⟨hproto, hhost, hpath⟩ := parseAuthority_sound h
                  (fun hcontra => absurd hcontra (by decide))
                exact ⟨false, ⟨sch, hproto, hhead, hchars, hlower, hsp⟩, hhost, hpath⟩

/-! ### Path preview -/

theorem pathPreview_inv {sp : Bool} {p : List Char} (h : PathInv sp p) :
    PathInv sp (pathPreview p) := by
  obtain ⟨hchars, hspt, hspf⟩ := h
  unfold pathPreview
  by_cases h20 : 20 < p.length
  · rw [if_pos h20]
    have hmem : ∀ c ∈ p.take 20 ++ "...".data, c ∈ p ∨ c = '.' := by
      intro c hc
      rcases List.mem_append.mp hc with hc | hc
      · exact Or.inl (List.mem_of_mem_take hc)
      · rw [show ("...".data) = ['.', '.', '.'] from rfl] at hc
        simp at hc
        exact Or.inr hc
    refine ⟨?_, ?_, ?_⟩
    · intro c hc
      rcases hmem c hc with hc | hc
      · exact hchars c hc
      · subst hc
        exact ⟨by decide, by decide⟩
    · intro hsp
      obtain ⟨⟨r, hpr⟩, hbs⟩ := hspt hsp
      constructor
      · subst hpr
        refine ⟨r.take 19 ++ "...".data, ?_⟩
        rw [show (20 : Nat) = 19 + 1 from rfl, List.take_succ_cons]
        simp
      · intro c hc
        rcases hmem c hc with hc | hc
        · exact hbs c hc
        · subst hc
          decide
    · intro hsp
      rcases hspf hsp with hnil | ⟨r, hpr⟩
      · subst hnil
        simp at h20
      · right
        subst hpr
        refine ⟨r.take 19 ++ "...".data, ?_⟩
        rw [show (20 : Nat) = 19 + 1 from rfl, List.take_succ_cons]
        simp
  · rw [if_neg h20]
    exact ⟨hchars, hspt, hspf⟩

theorem pathPreview_idem (p : List Char) :
    pathPreview (pathPreview p) = pathPreview p := by
  unfold pathPreview
  by_cases h : 20 < p.length
  · rw [if_pos h]
    have h20 : (p.take 20).length = 20 := by
      rw [List.length_take]
      omega
    have hlen : (p.take 20 ++ "...".data).length = 23 := by
      rw [List.length_append, h20]
      rfl
    rw [if_pos (by rw [hlen]; omega)]
    rw [List.take_left' h20]
  · rw [if_neg h, if_neg h]

/-! ### Re-parsing a rendered mask -/

theorem parseAuthority_render {proto H Pv : List Char} {sp : Bool}
    (hH : ∀ c ∈ H, ¬ c = '/' ∧ ¬ c = '?' ∧ ¬ c = '#' ∧ ¬ c = '@' ∧ ¬ c = ':' ∧ ¬ c = ' ')
    (hspH : sp = true → H ≠ [] ∧ lowerStr H = H)
    (hPv : ∀ c ∈ Pv, ¬ c = '?' ∧ ¬ c = '#')
    (hshape : Pv = [] ∨ ∃ r, Pv = '/' :: r)
    (hsppv : sp = true → ∃ r, Pv = '/' :: r) :
    parseAuthority proto (H ++ Pv) sp = some ⟨proto, H, Pv⟩ := by
  have hHgood : ∀ c ∈ H, (!authDelim c) = true := by
    intro c hc
    obtain ⟨h1, h2, h3, -, -, -⟩ := hH c hc
    simp [authDelim, h1, h2, h3]
  have hHhost : ∀ c ∈ H, ¬ c = '@' ∧ ¬ c = ':' := by
    intro c hc
    obtain ⟨-, -, -, h4, h5, -⟩ := hH c hc
    exact ⟨h4, h5⟩
  have hHspace : hostCharsOk H = true := by
    rw [hostCharsOk, List.all_eq_true]
    intro c hc
    obtain ⟨-, -, -, -, -, h6⟩ := hH c hc
    simpa using h6
  have hhostid := hostOfAuth_id hHhost
  have hhostfold : (if sp = true then lowerStr H else H) = H := by
    cases hsp2 : sp with
    | true => simpa using (hspH hsp2).2
    | false => simp
  rcases hshape with hnil | ⟨pr, hcons⟩
  · subst hnil
    rw [List.append_nil]
    have htw : H.takeWhile (fun c => !authDelim c) = H := takeWhile_all hHgood
    have hdw : H.dropWhile (fun c => !authDelim c) = [] := dropWhile_all hHgood
    unfold parseAuthority
    rw [htw, hdw, hhostid.1, hhostid.2]
    rw [if_neg ?g1]
    case g1 =>
      rintro ⟨hsp2, hHnil⟩
      exact (hspH hsp2).1 hHnil
    rw [if_neg (by decide)]
    rw [if_neg (by rw [hHspace]; decide)]
    simp only []
    rw [hhostfold]
    have hsp3 : sp = false := by
      cases hsp2 : sp with
      | true =>
          obtain ⟨r, hr⟩ := hsppv hsp2
          cases hr
      | false => rfl
    rw [hsp3]
    rfl
  · subst hcons
    have hslash : (fun c => !authDelim c) '/' = false := by decide
    have htw := (takeWhile_append_cons (r := pr) hHgood hslash).1
    have hdw := (takeWhile_append_cons (r := pr) hHgood hslash).2
    unfold parseAuthority
    rw [htw, hdw, hhostid.1, hhostid.2]
    rw [if_neg ?g2]
    case g2 =>
      rintro ⟨hsp2, hHnil⟩
      exact (hspH hsp2).1 hHnil
    rw [if_neg (by decide)]
    rw [if_neg (by rw [hHspace]; decide)]
    simp only []
    rw [hhostfold]
    rw [if_pos trivial]
    have hptw : ('/' :: pr).takeWhile (fun c => c ≠ '?' && c ≠ '#') = '/' :: pr :=
      takeWhile_all (fun c hc => by
        obtain ⟨h1, h2⟩ := hPv c hc
        simp [h1, h2])
    rw [hptw]

theorem parseUrlCore_render {sp : Bool} {u : UrlParts} (hinv : MaskInv sp u) :
    parseUrlCore (renderMask u) = some ⟨u.protocol, u.hostname, pathPreview u.pathname⟩ := by
  obtain ⟨⟨sch, hproto, hhead, hchars, hlower, hsp⟩, hhost, hpath⟩ := hinv
  obtain ⟨hpvchars, hpvsp, hpvshape⟩ := pathPreview_inv hpath
  obtain ⟨hhostchars, hhostsp⟩ := hhost
  have hrender : renderMask u
      = sch ++ ':' :: ('/' :: '/' :: (u.hostname ++ pathPreview u.pathname)) := by
    unfold renderMask
    rw [hproto]
    simp
  rw [hrender]
  unfold parseUrlCore
  rw [parseScheme_render hhead hchars hlower]
  simp only []
  rw [hsp]
  cases hspv : sp with
  | true =>
      rw [if_pos rfl]
      obtain ⟨hne, hlowerH, hnbs⟩ := hhostsp hspv
      obtain ⟨⟨pvr, hpvcons⟩, hpvbs⟩ := hpvsp hspv
      have hmapid : ('/' :: '/' :: (u.hostname ++ pathPreview u.pathname)).map slashify
          = '/' :: '/' :: (u.hostname ++ pathPreview u.pathname) := by
        apply map_eq_self_of
        intro x hx
        unfold slashify
        rw [if_neg ?nb]
        case nb =>
          rcases List.mem_cons.mp hx with rfl | hx
          · decide
          rcases List.mem_cons.mp hx with rfl | hx
          · decide
          rcases List.mem_append.mp hx with hx | hx
          · exact hnbs x hx
          · exact hpvbs x hx
      rw [hmapid]
      obtain ⟨h0, Ht, hHcons⟩ : ∃ h0 Ht, u.hostname = h0 :: Ht := by
        cases hH : u.hostname with
        | nil => exact absurd hH hne
        | cons h0 Ht => exact ⟨h0, Ht, rfl⟩
      have hh0 : ¬ h0 = '/' := by
        have := hhostchars h0 (by rw [hHcons]; simp)
        exact this.1
      have hdws : ('/' :: '/' :: (u.hostname ++ pathPreview u.pathname)).dropWhile
          (fun c => c = '/') = u.hostname ++ pathPreview u.pathname := by
        rw [List.dropWhile_cons_of_pos (by decide), List.dropWhile_cons_of_pos (by decide)]
        rw [hHcons, List.cons_append]
        rw [List.dropWhile_cons_of_neg (by simpa using hh0)]
      rw [hdws]
      rw [parseAuthority_render hhostchars (fun _ => ⟨hne, hlowerH⟩) hpvchars
        (Or.inr ⟨pvr, hpvcons⟩) (fun _ => ⟨pvr, hpvcons⟩)]
      rw [hproto]
  | false =>
      rw [if_neg (by decide)]
      rw [if_pos ⟨trivial, trivial⟩]
      rw [parseAuthority_render hhostchars (fun hcontra => absurd hcontra (by decide))
        hpvchars (hpvshape hspv) (fun hcontra => absurd hcontra (by decide))]
      rw [hproto]

/-! ### Masking round trips -/

theorem renderMask_ne_nil {sp : Bool} {u : UrlParts} (hinv : MaskInv sp u) :
    renderMask u ≠ [] := by
  obtain ⟨⟨sch, hproto, ⟨c, t, hsch, -⟩, -, -, -⟩, -, -⟩ := hinv
  unfold renderMask
  rw [hproto, hsch]
  simp

theorem maskUrlCore_stable {l m : List Char}
    (hau : authorityForm l = true) (h : maskUrlCore l = some m) :
    maskUrlCore m = some m := by
  have hlne : l ≠ [] := by
    intro hl
    subst hl
    exact absurd hau (by decide)
  unfold maskUrlCore at h
  rw [if_neg hlne] at h
  cases hu : parseUrlCore l with
  | none =>
      rw [hu] at h
      injection h with h
      subst h
      unfold maskUrlCore
      rw [if_neg (by decide)]
      rw [show parseUrlCore "***".data = none from by decide]
  | some u =>
      rw [hu] at h
      injection h with h
      subst h
      obtain ⟨sp, hinv⟩ := parseUrlCore_authSound hau hu
      unfold maskUrlCore
      rw [if_neg (renderMask_ne_nil hinv)]
      rw [parseUrlCore_render hinv]
      simp only [renderMask, pathPreview_idem]

theorem string_data_ne_nil {s : String} (h : s ≠ "") : s.data ≠ [] := by
  intro hdata
  apply h
  apply String.ext
  rw [hdata]

/-- **C8 counterexample.** The claim fails on the code three ways: the empty
string (not a well-formed URL) is mapped to `undefined`, not `***`; a URL
that is not an absolute HTTP/HTTPS URL need not become `***` — `ftp:` and
`mailto:` URLs are accepted by the URL constructor and masked like any
other; and masking is not idempotent: the already-masked value
`mailto://foo@bar.com` (the mask of `mailto:foo@bar.com`) masks to the
different value `mailto://bar.com`. -/
theorem maskUrl_claim_counterexample :
    maskUrl "" = none ∧ maskUrl "" ≠ some "***" ∧
    maskUrl "ftp://example.com/hook" = some "ftp://example.com/hook" ∧
    maskUrl "mailto:foo@bar.com" = some "mailto://foo@bar.com" ∧
    maskUrl "mailto://foo@bar.com" = some "mailto://bar.com" ∧
    maskUrl "mailto://foo@bar.com" ≠ some "mailto://foo@bar.com" := by
  refine ⟨rfl, by decide, by decide, by decide, by decide, by decide⟩

/-- **C8 (amended).** `maskUrl` rewrites every URL the constructor accepts
to its protocol plus `//` plus hostname plus an at-most-20-character
pathname prefix, the remainder (if any) replaced by `...`; it maps to the
literal `***` exactly the non-empty inputs the constructor rejects (for
the empty string the falsy guard yields `undefined` first); and masking is
idempotent on every URL read in authority form — every absolute
http/https URL in particular — and on `***` itself, though not on
opaque-path URLs such as `mailto:`. -/
theorem maskUrl_spec :
    (∀ (s : String) (u : UrlParts), parseUrl s = some u →
      maskUrl s = some (String.mk (renderMask u)) ∧
      ((u.pathname.length ≤ 20 ∧ pathPreview u.pathname = u.pathname) ∨
       (20 < u.pathname.length ∧
        pathPreview u.pathname = u.pathname.take 20 ++ "...".data))) ∧
    (∀ s : String, s ≠ "" → parseUrl s = none → maskUrl s = some "***") ∧
    (∀ s m : String, authorityForm s.data = true → maskUrl s = some m →
      maskUrl m = some m) ∧
    (∀ (s : String) (u : UrlParts), parseUrl s = some u →
      u.protocol = "http:".data ∨ u.protocol = "https:".data →
      authorityForm s.data = true) := by
  refine ⟨?_, ?_, ?_, ?_⟩
  · intro s u h
    have hne : s.data ≠ [] := by
      intro hdata
      rw [show parseUrl s = parseUrlCore s.data from rfl, hdata] at h
      cases h
    constructor
    · unfold maskUrl maskUrlCore
      rw [if_neg hne]
      rw [show parseUrl s = parseUrlCore s.data from rfl] at h
      rw [h]
      rfl
    · unfold pathPreview
      by_cases hlen : 20 < u.pathname.length
      · rw [if_pos hlen]
        exact Or.inr ⟨hlen, rfl⟩
      · rw [if_neg hlen]
        exact Or.inl ⟨by omega, rfl⟩
  · intro s hs h
    unfold maskUrl maskUrlCore
    rw [if_neg (string_data_ne_nil hs)]
    rw [show parseUrl s = parseUrlCore s.data from rfl] at h
    rw [h]
    rfl
  · intro s m hau h
    unfold maskUrl at h
    obtain ⟨md, hmd, hmk⟩ := Option.map_eq_some'.mp h
    have hmdata : m.data = md := by
      rw [← hmk]
    unfold maskUrl
    rw [hmdata, maskUrlCore_stable hau hmd, ← hmdata]
    rfl
  · intro s u h hhttp
    obtain ⟨sch, rest, hps, hproto⟩ := parseUrlCore_protocol h
    unfold authorityForm
    rw [hps]
    simp only []
    have hcontains : specialSchemes.contains sch = true := by
      rcases hhttp with hh | hh
      · rw [hproto] at hh
        have hsch : sch = "http".data :=
          (List.append_left_injective [':']).eq_iff.mp hh
        rw [hsch]
        decide
      · rw [hproto] at hh
        have hsch : sch = "https".data :=
          (List.append_left_injective [':']).eq_iff.mp hh
        rw [hsch]
        decide
    rw [hcontains]
    rfl

/-- **C8 witness.** Masking a concrete long-path HTTPS URL truncates its
path to 20 characters plus `...`, and — the URL being in authority form —
masking the masked value returns it unchanged. -/
theorem maskUrl_spec_witness :
    maskUrl "https://example.com/abcdefghijklmnopqrstuvwxyz"
      = some "https://example.com/abcdefghijklmnopqrs..." ∧
    maskUrl "https://example.com/abcdefghijklmnopqrs..."
      = some "https://example.com/abcdefghijklmnopqrs..." := by
  have hau : authorityForm "https://example.com/abcdefghijklmnopqrstuvwxyz".data = true := by
    decide
  have h1 : maskUrl "https://example.com/abcdefghijklmnopqrstuvwxyz"
      = some "https://example.com/abcdefghijklmnopqrs..." := by decide
  exact ⟨h1, maskUrl_spec.2.2.1 _ _ hau h1⟩

end PageMonitor
